import Mathlib

/-!
Verification of the Reversi rules engine and negamax move chooser
(src/piece.rs, src/tile_pos.rs, src/grid.rs, src/reversi.rs, src/ai.rs).

The Rust code is embedded shallowly: the mutable `Grid` becomes a list of
rows updated functionally, mutating methods on `Reversi` become functions
returning a new state, and the unbounded direction walk in `compute_flips`
becomes a fuel-bounded recursion (the fuel provably exceeds the length of
any walk on the fixed 8x8 board).  The random term of the evaluator is
fixed to 0, matching the claims under examination.
-/

/-- Piece enum from src/piece.rs: the two players' colors. -/
inductive Piece where
  | X
  | O
deriving DecidableEq, Repr

/-- Piece::opposite from src/piece.rs. -/
def Piece.opposite : Piece → Piece
  | .X => .O
  | .O => .X

/-- TilePos from src/tile_pos.rs: a (row, col) position. -/
structure TilePos where
  row : Nat
  col : Nat
deriving DecidableEq, Repr

/-- A tile is either empty or holds a piece (Option<Piece> in src/grid.rs). -/
abbrev Tile := Option Piece

/-- Grid from src/grid.rs: tiles stored row-by-row; tiles[r][c] is the tile at
row r, column c.  The Rust type is a fixed [[Option<Piece>; 8]; 8]; here the
8x8 shape is the well-formedness predicate Grid.WF below. -/
structure Grid where
  tiles : List (List Tile)
deriving DecidableEq, Repr

/-- The Rust array type fixes the 8x8 shape; the list embedding carries it as
a predicate. -/
def Grid.WF (g : Grid) : Prop :=
  g.tiles.length = 8 ∧ ∀ row ∈ g.tiles, row.length = 8

instance (g : Grid) : Decidable g.WF := by
  unfold Grid.WF; infer_instance

/-- Grid::default(): the all-empty 8x8 grid. -/
def Grid.empty : Grid := ⟨List.replicate 8 (List.replicate 8 none)⟩

/-- Grid::rows from src/grid.rs. -/
def Grid.rows (g : Grid) : List (List Tile) := g.tiles

/-- Grid::col_len from src/grid.rs (the number of rows). -/
def Grid.col_len (g : Grid) : Nat := g.tiles.length

/-- Grid::row_len from src/grid.rs (the number of columns). -/
def Grid.row_len (g : Grid) : Nat := (g.tiles.getD 0 []).length

/-- Grid::tile from src/grid.rs. -/
def Grid.tile (g : Grid) (pos : TilePos) : Tile :=
  (g.tiles.getD pos.row []).getD pos.col none

/-- Grid::place from src/grid.rs: overwrite the tile at pos. -/
def Grid.place (g : Grid) (pos : TilePos) (piece : Piece) : Grid :=
  ⟨g.tiles.set pos.row ((g.tiles.getD pos.row []).set pos.col (some piece))⟩

/-- Grid::is_full from src/grid.rs. -/
def Grid.is_full (g : Grid) : Bool :=
  g.tiles.all fun row => row.all fun tile => tile.isSome

/-- The 8 compass/diagonal directions searched by compute_flips
(src/reversi.rs line 139), in source order. -/
def directions : List (Int × Int) :=
  [(-1, -1), (-1, 0), (-1, 1), (0, -1), (0, 1), (1, -1), (1, 0), (1, 1)]

/-- One direction of the walk in compute_flips (src/reversi.rs lines 142-173).
The Rust loop `for i in 1..` walks outward from pos; some flips means the walk
hit one of the player's own pieces and commits the opponent tiles collected on
the way, none means it hit an empty tile, the board boundary, or ran out of
fuel (the fuel passed by compute_flips exceeds any possible walk length). -/
def scanDir (g : Grid) (player : Piece) (pos : TilePos) (drow dcol : Int) :
    Nat → Nat → Option (List TilePos)
  | 0, _ => none
  | fuel + 1, i =>
    let row : Int := (pos.row : Int) + drow * (i : Int)
    let col : Int := (pos.col : Int) + dcol * (i : Int)
    if 0 ≤ row ∧ row < (g.col_len : Int) ∧ 0 ≤ col ∧ col < (g.row_len : Int) then
      let current_pos : TilePos := ⟨row.toNat, col.toNat⟩
      match g.tile current_pos with
      | some piece =>
        if piece = player.opposite then
          (scanDir g player pos drow dcol fuel (i + 1)).map fun rest => current_pos :: rest
        else if piece = player then
          some []
        else
          scanDir g player pos drow dcol fuel (i + 1)
      | none => none
    else
      none

/-- Fuel bound for the direction walk: any walk that stays on the board takes
fewer steps than this. -/
def flipsFuel (g : Grid) : Nat := g.col_len + g.row_len + 2

/-- compute_flips from src/reversi.rs lines 118-177: the union over the 8
directions of the committed opponent runs. -/
def compute_flips (g : Grid) (player : Piece) (pos : TilePos) : List TilePos :=
  directions.flatMap fun d =>
    (scanDir g player pos d.1 d.2 (flipsFuel g) 1).getD []

/-- compute_valid_moves from src/reversi.rs lines 94-114: all empty tiles with
a non-empty flip set, scanned row by row. -/
def compute_valid_moves (g : Grid) (player : Piece) : List TilePos :=
  g.rows.enum.flatMap fun rp =>
    rp.2.enum.filterMap fun cp =>
      if cp.2.isSome then
        none
      else
        let pmove : TilePos := ⟨rp.1, cp.1⟩
        if compute_flips g player pmove ≠ [] then some pmove else none

/-- Reversi game state from src/reversi.rs lines 3-10. -/
structure Reversi where
  grid : Grid
  current_player : Piece
  valid_moves : List TilePos
deriving DecidableEq, Repr

/-- Reversi::default from src/reversi.rs lines 12-32. -/
def Reversi.default : Reversi :=
  let grid := ((((Grid.empty.place ⟨3, 3⟩ Piece.X).place ⟨3, 4⟩ Piece.O).place
      ⟨4, 3⟩ Piece.O).place ⟨4, 4⟩ Piece.X)
  let current_player := Piece.X
  { grid, current_player, valid_moves := compute_valid_moves grid current_player }

/-- Reversi::scores from src/reversi.rs lines 46-61, translating the two
mutable counters into a pair accumulator. -/
def Reversi.scores (st : Reversi) : Nat × Nat :=
  st.grid.rows.foldl
    (fun acc row =>
      row.foldl
        (fun acc2 tile =>
          match tile with
          | some Piece.X => (acc2.1 + 1, acc2.2)
          | some Piece.O => (acc2.1, acc2.2 + 1)
          | none => acc2)
        acc)
    (0, 0)

/-- Reversi::advance_turn from src/reversi.rs lines 69-72. -/
def Reversi.advance_turn (st : Reversi) : Reversi :=
  let current_player := st.current_player.opposite
  { st with
    current_player,
    valid_moves := compute_valid_moves st.grid current_player }

/-- Reversi::make_move from src/reversi.rs lines 80-92, with the panic
modeled separately by Reversi.make_move_panics. -/
def Reversi.make_move (st : Reversi) (pos : TilePos) : Reversi :=
  let flips := compute_flips st.grid st.current_player pos
  let player := st.current_player
  let grid := flips.foldl (fun g flip_pos => g.place flip_pos player) st.grid
  let grid := grid.place pos player
  Reversi.advance_turn { st with grid }

/-- The conditions under which Reversi::make_move panics: the out-of-bounds
index panic of Grid::tile (src/grid.rs line 45, reached through compute_flips),
the debug assertion of compute_flips on a non-empty tile (src/reversi.rs lines
130-131), and the zero-flips assertion of make_move (src/reversi.rs line 82). -/
def Reversi.make_move_panics (st : Reversi) (pos : TilePos) : Prop :=
  ¬(pos.row < st.grid.col_len ∧ pos.col < st.grid.row_len) ∨
    (st.grid.tile pos).isSome = true ∨
    compute_flips st.grid st.current_player pos = []

instance (st : Reversi) (pos : TilePos) : Decidable (st.make_move_panics pos) := by
  unfold Reversi.make_move_panics; infer_instance

/-- The states produced by the game's lifecycle: the initial state, and the
results of the two mutating operations (make_move on a cached valid move,
advance_turn). -/
inductive Reachable : Reversi → Prop where
  | init : Reachable Reversi.default
  | move (st : Reversi) (pos : TilePos) :
      Reachable st → pos ∈ st.valid_moves → Reachable (st.make_move pos)
  | pass (st : Reversi) : Reachable st → Reachable st.advance_turn

/-- CORNER_BONUS from src/ai.rs line 81. -/
def CORNER_BONUS : Int := 4

/-- SIDE_BONUS from src/ai.rs line 82. -/
def SIDE_BONUS : Int := 2

/-- The add_tile_score closure of negamax_score (src/ai.rs lines 94-105): the
value is added if the tile at pos is the player's, subtracted if it is the
opponent's, and nothing happens on an empty tile. -/
def tile_score (g : Grid) (player : Piece) (pos : TilePos) (value : Int) : Int :=
  match g.tile pos with
  | some piece => if piece = player then value else -value
  | none => 0

/-- negamax_score from src/ai.rs lines 78-140 with the random term
rng.gen_range(-100, 100) fixed to 0; the mutable score accumulated through the
closures becomes a sum of tile_score terms in the source's loop order. -/
def negamax_score (game : Reversi) (player : Piece) : Int :=
  let s := game.scores
  let base : Int :=
    if player = Piece.X then (s.1 : Int) - (s.2 : Int) else (s.2 : Int) - (s.1 : Int)
  let grid := game.grid
  let nrows := grid.col_len
  let ncols := grid.row_len
  let corners : List TilePos :=
    [⟨0, 0⟩, ⟨0, ncols - 1⟩, ⟨nrows - 1, 0⟩, ⟨nrows - 1, ncols - 1⟩]
  let cornerSum := (corners.map fun corner => tile_score grid player corner CORNER_BONUS).sum
  let rowSideSum := ((List.range nrows).map fun row =>
    tile_score grid player ⟨row, 0⟩ SIDE_BONUS +
      tile_score grid player ⟨row, ncols - 1⟩ SIDE_BONUS).sum
  let colSideSum := ((List.range ncols).map fun col =>
    tile_score grid player ⟨0, col⟩ SIDE_BONUS +
      tile_score grid player ⟨nrows - 1, col⟩ SIDE_BONUS).sum
  base + cornerSum + rowSideSum + colSideSum

/-- MAX_DEPTH from src/ai.rs line 40. -/
def MAX_DEPTH : Nat := 4

/-- i32::min_value(), the initial running maximum of the negamax move loop
(src/ai.rs line 56). -/
def intMin : Int := -2147483648

/-- negamax from src/ai.rs lines 33-74 with the evaluator's random term fixed
to 0.  The mutable (max_move, max_score) pair of the move loop becomes a foldl
accumulator; the recursion is bounded by MAX_DEPTH exactly as in the source. -/
def negamax (game : Reversi) (valid_moves : List TilePos) (skipped : Bool)
    (depth : Nat) : Option TilePos × Int :=
  if _h : depth ≥ MAX_DEPTH ∨ game.grid.is_full = true ∨
      (skipped = true ∧ valid_moves = []) then
    (none, negamax_score game game.current_player)
  else if _h2 : valid_moves = [] then
    let mgame := game.advance_turn
    negamax mgame mgame.valid_moves true (depth + 1)
  else
    valid_moves.foldl
      (fun acc pmove =>
        let mgame := game.make_move pmove
        let score := -(negamax mgame mgame.valid_moves false (depth + 1)).2
        if acc.2 < score then (some pmove, score) else acc)
      (none, intMin)
termination_by MAX_DEPTH - depth
decreasing_by
  all_goals
    simp only [not_or, not_le] at _h
    omega

/-- negamax_ai from src/ai.rs lines 25-28: the top-level search entry; the
final pmove.unwrap() panics exactly when this returns none. -/
def negamax_ai (game : Reversi) (valid_moves : List TilePos) : Option TilePos :=
  (negamax game valid_moves false 0).1

/-! Spec-side definitions, written from the specification's words, to be
compared with the source-embedded functions above. -/

/-- Row coordinate of the i-th step of the walk from pos in direction
(drow, dcol). -/
def step_row (pos : TilePos) (drow : Int) (i : Nat) : Int :=
  (pos.row : Int) + drow * (i : Int)

/-- Column coordinate of the i-th step of the walk from pos in direction
(drow, dcol). -/
def step_col (pos : TilePos) (dcol : Int) (i : Nat) : Int :=
  (pos.col : Int) + dcol * (i : Int)

/-- Whether the i-th step of the walk stays on the board. -/
def step_in_bounds (g : Grid) (pos : TilePos) (drow dcol : Int) (i : Nat) : Prop :=
  0 ≤ step_row pos drow i ∧ step_row pos drow i < (g.col_len : Int) ∧
    0 ≤ step_col pos dcol i ∧ step_col pos dcol i < (g.row_len : Int)

instance (g : Grid) (pos : TilePos) (drow dcol : Int) (i : Nat) :
    Decidable (step_in_bounds g pos drow dcol i) := by
  unfold step_in_bounds; infer_instance

/-- The position of the i-th step of the walk. -/
def step_tile_pos (pos : TilePos) (drow dcol : Int) (i : Nat) : TilePos :=
  ⟨(step_row pos drow i).toNat, (step_col pos dcol i).toNat⟩

/-- Whether the i-th step of the walk is an in-bounds tile holding an opponent
piece (a tile the spec calls provisionally captured). -/
def opp_step (g : Grid) (player : Piece) (pos : TilePos) (drow dcol : Int)
    (i : Nat) : Bool :=
  decide (step_in_bounds g pos drow dcol i ∧
    g.tile (step_tile_pos pos drow dcol i) = some player.opposite)

/-- Spec-side: the length of the maximal run of consecutive opponent tiles
adjacent to the placement in direction (drow, dcol).  On an 8x8 board no such
run is longer than 8, so scanning steps 1..9 is exhaustive. -/
def spec_run_len (g : Grid) (player : Piece) (pos : TilePos) (drow dcol : Int) : Nat :=
  ((List.range' 1 9).takeWhile (opp_step g player pos drow dcol)).length

/-- Spec-side: the flips contributed by one direction — the maximal opponent
run, committed only when the tile just beyond it is on the board and owned by
the acting player; nothing when the walk reaches an empty tile or the board
boundary first, or when zero opponent tiles precede the player's own tile. -/
def spec_dir_flips (g : Grid) (player : Piece) (pos : TilePos) (drow dcol : Int) :
    List TilePos :=
  if step_in_bounds g pos drow dcol (spec_run_len g player pos drow dcol + 1) ∧
      g.tile (step_tile_pos pos drow dcol (spec_run_len g player pos drow dcol + 1)) =
        some player then
    (List.range' 1 (spec_run_len g player pos drow dcol)).map (step_tile_pos pos drow dcol)
  else
    []

/-- Spec-side: the flip set is the union over the 8 compass/diagonal
directions of the per-direction committed runs. -/
def spec_flips (g : Grid) (player : Piece) (pos : TilePos) : List TilePos :=
  directions.flatMap fun d => spec_dir_flips g player pos d.1 d.2

/-- Spec-side: the legal moves are exactly the positions whose tile is empty
and whose flip set is non-empty, listed in row-major order (row ascending,
then column ascending). -/
def spec_legal_moves (g : Grid) (player : Piece) : List TilePos :=
  (List.range 8).flatMap fun row =>
    (List.range 8).filterMap fun col =>
      if g.tile ⟨row, col⟩ = none ∧ spec_flips g player ⟨row, col⟩ ≠ [] then
        some (⟨row, col⟩ : TilePos)
      else
        none

/-- Spec-side: the 4 corner tiles of the 8x8 board. -/
def spec_corners : List TilePos := [⟨0, 0⟩, ⟨0, 7⟩, ⟨7, 0⟩, ⟨7, 7⟩]

/-- Spec-side: the non-corner border tiles of the 8x8 board, in row-major
order.  (There are 24 of them; the spec's count of 28 includes the corners.) -/
def spec_side_tiles : List TilePos :=
  (List.range 8).flatMap fun row =>
    (List.range 8).filterMap fun col =>
      if (row = 0 ∨ row = 7 ∨ col = 0 ∨ col = 7) ∧
          ¬(⟨row, col⟩ : TilePos) ∈ spec_corners then
        some (⟨row, col⟩ : TilePos)
      else
        none

/-- Spec-side evaluator as the claim states it: tile-count difference, plus
CORNER_BONUS per corner under the owned/opponent/empty rule, plus SIDE_BONUS
per non-corner border tile, with corners receiving no side bonus. -/
def spec_eval (game : Reversi) (player : Piece) : Int :=
  let s := game.scores
  let base : Int :=
    if player = Piece.X then (s.1 : Int) - (s.2 : Int) else (s.2 : Int) - (s.1 : Int)
  base + (spec_corners.map fun c => tile_score game.grid player c CORNER_BONUS).sum +
    (spec_side_tiles.map fun c => tile_score game.grid player c SIDE_BONUS).sum

/-- Spec-side evaluator as amended: each corner contributes
CORNER_BONUS + 2 * SIDE_BONUS (the code's side loops visit every corner once
each), and each of the 24 non-corner border tiles contributes SIDE_BONUS. -/
def spec_eval_amended (game : Reversi) (player : Piece) : Int :=
  let s := game.scores
  let base : Int :=
    if player = Piece.X then (s.1 : Int) - (s.2 : Int) else (s.2 : Int) - (s.1 : Int)
  base +
    (spec_corners.map fun c =>
      tile_score game.grid player c (CORNER_BONUS + 2 * SIDE_BONUS)).sum +
    (spec_side_tiles.map fun c => tile_score game.grid player c SIDE_BONUS).sum

/-- Spec-side: the maximal negated child score over a move list (the running
maximum starts at i32::min_value() as in the source). -/
def best_score (f : TilePos → Int) (moves : List TilePos) : Int :=
  (moves.map f).foldl max intMin

/-- Spec-side: the earliest move in iteration order among those attaining the
maximal negated child score. -/
def best_move (f : TilePos → Int) (moves : List TilePos) : Option TilePos :=
  moves.find? fun m => decide (f m = best_score f moves)

/-- The number of occupied tiles of a grid. -/
def Grid.occupied (g : Grid) : Nat :=
  (g.tiles.map fun row => row.countP fun tile => tile.isSome).sum

/-! Helper lemmas about list updates and the embedded grid. -/

lemma getD_set_self {α : Type} (l : List α) (i : Nat) (a d : α) (h : i < l.length) :
    (l.set i a).getD i d = a := by
  rw [List.getD_eq_getElem _ _ (by simpa using h)]
  simp

lemma getD_set_ne {α : Type} (l : List α) {i j : Nat} (a d : α) (h : i ≠ j) :
    (l.set i a).getD j d = l.getD j d := by
  by_cases hj : j < l.length
  · rw [List.getD_eq_getElem _ _ (by simpa using hj), List.getD_eq_getElem _ _ hj]
    simp [List.getElem_set_ne h]
  · rw [List.getD_eq_default _ _ (by simpa using Nat.le_of_not_lt hj),
      List.getD_eq_default _ _ (Nat.le_of_not_lt hj)]

lemma TilePos.ext_iff {p q : TilePos} : p = q ↔ p.row = q.row ∧ p.col = q.col := by
  cases p; cases q; simp

lemma tile_place_self (g : Grid) (pos : TilePos) (piece : Piece)
    (hr : pos.row < g.tiles.length) (hc : pos.col < (g.tiles.getD pos.row []).length) :
    (g.place pos piece).tile pos = some piece := by
  unfold Grid.place Grid.tile
  simp only
  rw [getD_set_self _ _ _ _ hr, getD_set_self _ _ _ _ hc]

lemma tile_row_oob {g : Grid} {q : TilePos} (h : g.tiles.length ≤ q.row) :
    g.tile q = none := by
  unfold Grid.tile
  have hrow : g.tiles.getD q.row [] = ([] : List Tile) := List.getD_eq_default _ _ h
  rw [hrow]
  simp

lemma tile_place_ne (g : Grid) (p q : TilePos) (piece : Piece) (h : q ≠ p) :
    (g.place p piece).tile q = g.tile q := by
  by_cases hrow : p.row = q.row
  · have hcol : p.col ≠ q.col := by
      intro hc
      exact h (TilePos.ext_iff.mpr ⟨hrow.symm, hc.symm⟩)
    by_cases hr : p.row < g.tiles.length
    · unfold Grid.place Grid.tile
      simp only
      rw [← hrow, getD_set_self _ _ _ _ hr, getD_set_ne _ _ _ hcol]
    · have hq : g.tiles.length ≤ q.row := by
        rw [← hrow]; exact Nat.le_of_not_lt hr
      have hq' : (g.place p piece).tiles.length ≤ q.row := by
        unfold Grid.place
        simpa using hq
      rw [tile_row_oob hq, tile_row_oob hq']
  · unfold Grid.place Grid.tile
    simp only
    rw [getD_set_ne _ _ _ hrow]

lemma isSome_tile_inb {g : Grid} {q : TilePos} (h : (g.tile q).isSome = true) :
    q.row < g.tiles.length ∧ q.col < (g.tiles.getD q.row []).length := by
  unfold Grid.tile at h
  constructor
  · by_contra hr
    rw [List.getD_eq_default _ _ (Nat.le_of_not_lt hr)] at h
    simp at h
  · by_contra hc
    rw [List.getD_eq_default _ _ (Nat.le_of_not_lt hc)] at h
    simp at h

lemma countP_set {α : Type} (p : α → Bool) (l : List α) (i : Nat) (a d : α)
    (h : i < l.length) :
    (l.set i a).countP p + (if p (l.getD i d) then 1 else 0) =
      l.countP p + (if p a then 1 else 0) := by
  induction l generalizing i with
  | nil => simp at h
  | cons x xs ih =>
    cases i with
    | zero => simp [List.countP_cons]; omega
    | succ n =>
      have hn : n < xs.length := by simpa using h
      have := ih n hn
      simp only [List.set_cons_succ, List.countP_cons, List.getD_cons_succ]
      omega

lemma sum_map_set {α : Type} (f : α → Nat) (l : List α) (i : Nat) (a d : α)
    (h : i < l.length) :
    ((l.set i a).map f).sum + f (l.getD i d) = (l.map f).sum + f a := by
  induction l generalizing i with
  | nil => simp at h
  | cons x xs ih =>
    cases i with
    | zero => simp; omega
    | succ n =>
      have hn : n < xs.length := by simpa using h
      have := ih n hn
      simp only [List.set_cons_succ, List.map_cons, List.sum_cons, List.getD_cons_succ]
      omega

lemma occupied_place_of_isSome {g : Grid} {q : TilePos} (piece : Piece)
    (h : (g.tile q).isSome = true) :
    (g.place q piece).occupied = g.occupied := by
  obtain ⟨hr, hc⟩ := isSome_tile_inb h
  have hsum := sum_map_set (fun row => row.countP fun tile => tile.isSome)
    g.tiles q.row ((g.tiles.getD q.row []).set q.col (some piece)) [] hr
  have hcnt := countP_set (fun tile => tile.isSome) (g.tiles.getD q.row [])
    q.col (some piece) none hc
  have hone : (if Option.isSome ((g.tiles.getD q.row []).getD q.col none) = true
      then 1 else 0) = 1 := by
    unfold Grid.tile at h
    rw [if_pos h]
  have hcond : Option.isSome (some piece) = true := Option.isSome_some
  have hone2 : (if Option.isSome (some piece) = true then 1 else 0) = 1 := by
    rw [if_pos hcond]
  beta_reduce at hsum hcnt
  rw [hone, hone2] at hcnt
  unfold Grid.place Grid.occupied
  simp only
  omega

lemma occupied_place_of_none {g : Grid} {q : TilePos} (piece : Piece)
    (hnone : g.tile q = none) (hr : q.row < g.tiles.length)
    (hc : q.col < (g.tiles.getD q.row []).length) :
    (g.place q piece).occupied = g.occupied + 1 := by
  have hsum := sum_map_set (fun row => row.countP fun tile => tile.isSome)
    g.tiles q.row ((g.tiles.getD q.row []).set q.col (some piece)) [] hr
  have hcnt := countP_set (fun tile => tile.isSome) (g.tiles.getD q.row [])
    q.col (some piece) none hc
  have hzero : (if Option.isSome ((g.tiles.getD q.row []).getD q.col none) = true
      then 1 else 0) = 0 := by
    unfold Grid.tile at hnone
    have hfalse : ¬ Option.isSome ((g.tiles.getD q.row []).getD q.col none) = true := by
      rw [hnone]
      simp
    rw [if_neg hfalse]
  have hcond : Option.isSome (some piece) = true := Option.isSome_some
  have hone2 : (if Option.isSome (some piece) = true then 1 else 0) = 1 := by
    rw [if_pos hcond]
  beta_reduce at hsum hcnt
  rw [hzero, hone2] at hcnt
  unfold Grid.place Grid.occupied
  simp only
  omega

lemma isSome_tile_place {g : Grid} {q q' : TilePos} (piece : Piece)
    (h : (g.tile q').isSome = true) :
    ((g.place q piece).tile q').isSome = true := by
  by_cases hq : q' = q
  · subst hq
    obtain ⟨hr, hc⟩ := isSome_tile_inb h
    rw [tile_place_self g q' piece hr hc]
    simp
  · rw [tile_place_ne g q q' piece hq]
    exact h

lemma foldl_place_props (flips : List TilePos) (g : Grid) (player : Piece)
    (hocc : ∀ q ∈ flips, (g.tile q).isSome = true) :
    (flips.foldl (fun gr fp => gr.place fp player) g).occupied = g.occupied ∧
    (∀ q, (g.tile q).isSome = true →
      ((flips.foldl (fun gr fp => gr.place fp player) g).tile q).isSome = true) ∧
    (∀ q ∈ flips, (flips.foldl (fun gr fp => gr.place fp player) g).tile q = some player) ∧
    (∀ q, q ∉ flips → (flips.foldl (fun gr fp => gr.place fp player) g).tile q = g.tile q) := by
  induction flips generalizing g with
  | nil => simp
  | cons a rest ih =>
    simp only [List.foldl_cons]
    have ha : (g.tile a).isSome = true := hocc a (by simp)
    obtain ⟨har, hac⟩ := isSome_tile_inb ha
    have hplace : (g.place a player).tile a = some player := tile_place_self g a player har hac
    have hocc' : ∀ q ∈ rest, ((g.place a player).tile q).isSome = true := by
      intro q hq
      exact isSome_tile_place player (hocc q (List.mem_cons_of_mem a hq))
    obtain ⟨ih1, ih2, ih3, ih4⟩ := ih (g.place a player) hocc'
    refine ⟨?_, ?_, ?_, ?_⟩
    · rw [ih1, occupied_place_of_isSome player ha]
    · intro q hq
      exact ih2 q (isSome_tile_place player hq)
    · intro q hq
      by_cases hqr : q ∈ rest
      · exact ih3 q hqr
      · have hqa : q = a := by
          rcases List.mem_cons.mp hq with h1 | h2
          · exact h1
          · exact absurd h2 hqr
        subst hqa
        rw [ih4 q hqr, hplace]
    · intro q hq
      have hqa : q ≠ a := fun hh => hq (hh ▸ List.mem_cons_self a rest)
      have hqrest : q ∉ rest := fun hh => hq (List.mem_cons_of_mem a hh)
      rw [ih4 q hqrest, tile_place_ne g a q player hqa]

/-! Helper lemmas characterizing Reversi.scores. -/

lemma scores_row_foldl (row : List Tile) (a b : Nat) :
    row.foldl
      (fun acc2 tile =>
        match tile with
        | some Piece.X => (acc2.1 + 1, acc2.2)
        | some Piece.O => (acc2.1, acc2.2 + 1)
        | none => acc2)
      (a, b) =
    (a + row.countP fun t => decide (t = some Piece.X),
     b + row.countP fun t => decide (t = some Piece.O)) := by
  induction row generalizing a b with
  | nil => simp
  | cons t ts ih =>
    match t with
    | none => simp [List.countP_cons, ih]
    | some Piece.X =>
      simp only [List.foldl_cons, ih, List.countP_cons]
      simp
      omega
    | some Piece.O =>
      simp only [List.foldl_cons, ih, List.countP_cons]
      simp
      omega

lemma scores_rows_foldl (rows : List (List Tile)) (a b : Nat) :
    rows.foldl
      (fun acc row =>
        row.foldl
          (fun acc2 tile =>
            match tile with
            | some Piece.X => (acc2.1 + 1, acc2.2)
            | some Piece.O => (acc2.1, acc2.2 + 1)
            | none => acc2)
          acc)
      (a, b) =
    (a + (rows.map fun row => row.countP fun t => decide (t = some Piece.X)).sum,
     b + (rows.map fun row => row.countP fun t => decide (t = some Piece.O)).sum) := by
  induction rows generalizing a b with
  | nil => simp
  | cons r rs ih =>
    simp only [List.foldl_cons, List.map_cons, List.sum_cons]
    rw [scores_row_foldl r a b, ih]
    simp only [Prod.mk.injEq]
    omega

lemma scores_eq (st : Reversi) :
    st.scores =
      ((st.grid.tiles.map fun row => row.countP fun t => decide (t = some Piece.X)).sum,
       (st.grid.tiles.map fun row => row.countP fun t => decide (t = some Piece.O)).sum) := by
  unfold Reversi.scores Grid.rows
  rw [scores_rows_foldl]
  simp

lemma countP_X_add_O (row : List Tile) :
    (row.countP fun t => decide (t = some Piece.X)) +
      (row.countP fun t => decide (t = some Piece.O)) =
    row.countP fun t => t.isSome := by
  induction row with
  | nil => simp
  | cons t ts ih =>
    match t with
    | none => simp [List.countP_cons, ih]
    | some Piece.X => simp [List.countP_cons, ih]; omega
    | some Piece.O => simp [List.countP_cons, ih]; omega

lemma sum_map_add_nat {α : Type} (f g : α → Nat) (l : List α) :
    (l.map f).sum + (l.map g).sum = (l.map fun x => f x + g x).sum := by
  induction l with
  | nil => simp
  | cons x xs ih => simp [List.sum_cons]; omega

lemma scores_sum_eq_occupied (st : Reversi) :
    st.scores.1 + st.scores.2 = st.grid.occupied := by
  rw [scores_eq]
  unfold Grid.occupied
  simp only
  rw [sum_map_add_nat]
  congr 1
  apply List.map_congr_left
  intro row _
  exact countP_X_add_O row

lemma sum_map_le_nat {α : Type} (f : α → Nat) (l : List α) (c : Nat)
    (h : ∀ x ∈ l, f x ≤ c) : (l.map f).sum ≤ l.length * c := by
  induction l with
  | nil => simp
  | cons x xs ih =>
    simp only [List.map_cons, List.sum_cons, List.length_cons]
    have h1 := h x (by simp)
    have h2 := ih fun y hy => h y (List.mem_cons_of_mem x hy)
    have : (xs.length + 1) * c = xs.length * c + c := by ring
    omega

lemma scores_le_64 (st : Reversi) (hwf : st.grid.WF) :
    st.scores.1 ≤ 64 ∧ st.scores.2 ≤ 64 := by
  obtain ⟨hlen, hrows⟩ := hwf
  rw [scores_eq]
  constructor
  · have := sum_map_le_nat (fun row => row.countP fun t => decide (t = some Piece.X))
      st.grid.tiles 8 (fun row hr => le_trans (List.countP_le_length _) (le_of_eq (hrows row hr)))
    simpa [hlen] using this
  · have := sum_map_le_nat (fun row => row.countP fun t => decide (t = some Piece.O))
      st.grid.tiles 8 (fun row hr => le_trans (List.countP_le_length _) (le_of_eq (hrows row hr)))
    simpa [hlen] using this

/-- C3: the default-constructed game has X at (3,3) and (4,4), O at (3,4) and
(4,3), every other tile empty, current player X, and its legal-move list is
exactly [(2,4), (3,5), (4,2), (5,3)] in that row-major order, each of the four
moves flipping exactly one position. -/
theorem default_state_spec :
    Reversi.default.grid.tile ⟨3, 3⟩ = some Piece.X ∧
    Reversi.default.grid.tile ⟨4, 4⟩ = some Piece.X ∧
    Reversi.default.grid.tile ⟨3, 4⟩ = some Piece.O ∧
    Reversi.default.grid.tile ⟨4, 3⟩ = some Piece.O ∧
    (∀ r < 8, ∀ c < 8,
      ((r, c) ∉ ([(3, 3), (3, 4), (4, 3), (4, 4)] : List (Nat × Nat))) →
      Reversi.default.grid.tile ⟨r, c⟩ = none) ∧
    Reversi.default.current_player = Piece.X ∧
    Reversi.default.valid_moves = [⟨2, 4⟩, ⟨3, 5⟩, ⟨4, 2⟩, ⟨5, 3⟩] ∧
    ∀ m ∈ Reversi.default.valid_moves,
      (compute_flips Reversi.default.grid Piece.X m).length = 1 := by
  decide

/-- C4: applying move (2,4) to the initial state changes exactly tiles (2,4)
(empty to X) and (3,4) (O to X), yields scores (4, 1), makes O the current
player, and O's legal-move list is non-empty and differs from X's original
list. -/
theorem first_move_spec :
    Reversi.default.grid.tile ⟨2, 4⟩ = none ∧
    (Reversi.default.make_move ⟨2, 4⟩).grid.tile ⟨2, 4⟩ = some Piece.X ∧
    Reversi.default.grid.tile ⟨3, 4⟩ = some Piece.O ∧
    (Reversi.default.make_move ⟨2, 4⟩).grid.tile ⟨3, 4⟩ = some Piece.X ∧
    (∀ r < 8, ∀ c < 8, ((r, c) ∉ ([(2, 4), (3, 4)] : List (Nat × Nat))) →
      (Reversi.default.make_move ⟨2, 4⟩).grid.tile ⟨r, c⟩ =
        Reversi.default.grid.tile ⟨r, c⟩) ∧
    (Reversi.default.make_move ⟨2, 4⟩).scores = (4, 1) ∧
    (Reversi.default.make_move ⟨2, 4⟩).current_player = Piece.O ∧
    (Reversi.default.make_move ⟨2, 4⟩).valid_moves ≠ [] ∧
    (Reversi.default.make_move ⟨2, 4⟩).valid_moves ≠ Reversi.default.valid_moves := by
  decide

/-- C5: every reachable state (the initial state, or the result of make_move
on a cached valid move or of advance_turn from a reachable state) has its
cached legal-move list equal to compute_valid_moves recomputed from its board
and current player. -/
theorem reachable_valid_moves_cache (st : Reversi) (h : Reachable st) :
    st.valid_moves = compute_valid_moves st.grid st.current_player := by
  induction h with
  | init => rfl
  | move st pos _ _ _ => rfl
  | pass st _ _ => rfl

/-- Witness for the reachable-cache invariant at the initial state. -/
theorem reachable_valid_moves_cache_witness :
    Reversi.default.valid_moves =
      compute_valid_moves Reversi.default.grid Reversi.default.current_player :=
  reachable_valid_moves_cache Reversi.default Reachable.init

/-- C6: advance_turn leaves every tile of the board unchanged, switches the
current player to its opposite, changes only the cached legal-move list, and
preserves scores. -/
theorem advance_turn_frame (st : Reversi) :
    st.advance_turn.grid = st.grid ∧
    (∀ pos : TilePos, st.advance_turn.grid.tile pos = st.grid.tile pos) ∧
    st.advance_turn.current_player = st.current_player.opposite ∧
    st.advance_turn.valid_moves =
      compute_valid_moves st.grid st.current_player.opposite ∧
    st.advance_turn.scores = st.scores :=
  ⟨rfl, fun _ => rfl, rfl, rfl, rfl⟩

/-! Helper lemmas for the evaluator. -/

lemma WF_col_len {g : Grid} (hwf : g.WF) : g.col_len = 8 := hwf.1

lemma WF_row_len {g : Grid} (hwf : g.WF) : g.row_len = 8 := by
  unfold Grid.row_len
  have h0 : 0 < g.tiles.length := by rw [hwf.1]; norm_num
  rw [List.getD_eq_getElem _ _ h0]
  exact hwf.2 _ (List.getElem_mem h0)

lemma tile_score_add (g : Grid) (p : Piece) (pos : TilePos) (a b : Int) :
    tile_score g p pos (a + b) = tile_score g p pos a + tile_score g p pos b := by
  unfold tile_score
  cases g.tile pos with
  | none => simp
  | some piece =>
    by_cases hp : piece = p <;> (simp [hp]; try ring)

/-- A single state exhibiting the divergence between the evaluator and the
claim's formula: X owns corner (0,0) and nothing else. -/
def cornerState : Reversi := ⟨Grid.empty.place ⟨0, 0⟩ Piece.X, Piece.X, []⟩

/-- Counterexample to C2 as stated: with an owned corner, negamax_score gives
the corner both side bonuses on top of the corner bonus (1 + 4 + 2 + 2 = 9),
while the claim's formula gives only the corner bonus (1 + 4 = 5). -/
theorem negamax_score_ne_claim :
    negamax_score cornerState Piece.X = 9 ∧
    spec_eval cornerState Piece.X = 5 ∧
    negamax_score cornerState Piece.X ≠ spec_eval cornerState Piece.X := by
  decide

/-- C2 as amended: on a well-formed 8x8 board the evaluator equals the
tile-count difference plus CORNER_BONUS + 2 * SIDE_BONUS per corner and
SIDE_BONUS per non-corner border tile (the code's two side loops each visit
every corner once, so corners collect both side bonuses). -/
theorem negamax_score_eq_amended (st : Reversi) (player : Piece)
    (hwf : st.grid.WF) :
    negamax_score st player = spec_eval_amended st player := by
  have hside : spec_side_tiles =
      ([⟨0, 1⟩, ⟨0, 2⟩, ⟨0, 3⟩, ⟨0, 4⟩, ⟨0, 5⟩, ⟨0, 6⟩,
        ⟨1, 0⟩, ⟨1, 7⟩, ⟨2, 0⟩, ⟨2, 7⟩, ⟨3, 0⟩, ⟨3, 7⟩,
        ⟨4, 0⟩, ⟨4, 7⟩, ⟨5, 0⟩, ⟨5, 7⟩, ⟨6, 0⟩, ⟨6, 7⟩,
        ⟨7, 1⟩, ⟨7, 2⟩, ⟨7, 3⟩, ⟨7, 4⟩, ⟨7, 5⟩, ⟨7, 6⟩] : List TilePos) := by
    decide
  have hrange : List.range 8 = [0, 1, 2, 3, 4, 5, 6, 7] := rfl
  have htwo : CORNER_BONUS + 2 * SIDE_BONUS =
      CORNER_BONUS + SIDE_BONUS + SIDE_BONUS := by
    unfold CORNER_BONUS SIDE_BONUS
    ring
  unfold negamax_score spec_eval_amended spec_corners
  simp only [WF_col_len hwf, WF_row_len hwf, hside, hrange, htwo,
    show (8 : Nat) - 1 = 7 from rfl]
  simp only [List.map_cons, List.map_nil, List.sum_cons, List.sum_nil,
    tile_score_add]
  ring

/-- Witness for the amended evaluator theorem at the initial state. -/
theorem negamax_score_eq_amended_witness :
    Reversi.default.grid.WF ∧
      negamax_score Reversi.default Piece.X = spec_eval_amended Reversi.default Piece.X :=
  ⟨by decide, negamax_score_eq_amended Reversi.default Piece.X (by decide)⟩

/-! Equivalence of the fuel-bounded direction walk with the spec's
maximal-run description. -/

lemma Piece.opposite_ne (p : Piece) : p ≠ p.opposite := by
  cases p <;> simp [Piece.opposite]

lemma opp_step_iff (g : Grid) (player : Piece) (pos : TilePos) (drow dcol : Int)
    (i : Nat) :
    opp_step g player pos drow dcol i = true ↔
      step_in_bounds g pos drow dcol i ∧
        g.tile (step_tile_pos pos drow dcol i) = some player.opposite := by
  unfold opp_step
  exact decide_eq_true_iff

lemma scanDir_eq_spec (g : Grid) (player : Piece) (pos : TilePos) (drow dcol : Int) :
    ∀ fuel i n,
      ((List.range' i n).takeWhile (opp_step g player pos drow dcol)).length < n →
      ((List.range' i n).takeWhile (opp_step g player pos drow dcol)).length < fuel →
      scanDir g player pos drow dcol fuel i =
        if step_in_bounds g pos drow dcol
              (i + ((List.range' i n).takeWhile (opp_step g player pos drow dcol)).length) ∧
            g.tile (step_tile_pos pos drow dcol
              (i + ((List.range' i n).takeWhile (opp_step g player pos drow dcol)).length)) =
              some player then
          some ((List.range' i
            ((List.range' i n).takeWhile (opp_step g player pos drow dcol)).length).map
              (step_tile_pos pos drow dcol))
        else
          none := by
  intro fuel
  induction fuel with
  | zero =>
    intro i n h1 h2
    omega
  | succ fuel ih =>
    intro i n h1 h2
    obtain ⟨m, rfl⟩ : ∃ m, n = m + 1 := ⟨n - 1, by omega⟩
    rw [List.range'_succ] at h1 h2 ⊢
    by_cases hok : opp_step g player pos drow dcol i = true
    · obtain ⟨hinb, htile⟩ := (opp_step_iff g player pos drow dcol i).mp hok
      rw [List.takeWhile_cons_of_pos hok] at h1 h2 ⊢
      simp only [List.length_cons] at h1 h2 ⊢
      have hrec := ih (i + 1) m (by omega) (by omega)
      have hidx : i + (((List.range' (i + 1) m).takeWhile
          (opp_step g player pos drow dcol)).length + 1) =
          (i + 1) + ((List.range' (i + 1) m).takeWhile
            (opp_step g player pos drow dcol)).length := by
        omega
      have hinb' : 0 ≤ (pos.row : Int) + drow * (i : Int) ∧
          (pos.row : Int) + drow * (i : Int) < (g.col_len : Int) ∧
          0 ≤ (pos.col : Int) + dcol * (i : Int) ∧
          (pos.col : Int) + dcol * (i : Int) < (g.row_len : Int) := hinb
      simp only [scanDir]
      rw [if_pos hinb']
      rw [hidx]
      split
      · rename_i piece heq
        have hpp : player.opposite = piece := Option.some.inj (htile.symm.trans heq)
        rw [← hpp]
        rw [if_pos rfl, hrec]
        by_cases hcommit : step_in_bounds g pos drow dcol
              ((i + 1) + ((List.range' (i + 1) m).takeWhile
                (opp_step g player pos drow dcol)).length) ∧
            g.tile (step_tile_pos pos drow dcol
              ((i + 1) + ((List.range' (i + 1) m).takeWhile
                (opp_step g player pos drow dcol)).length)) = some player
        · rw [if_pos hcommit, if_pos hcommit]
          simp only [Option.map_some']
          rw [List.range'_succ, List.map_cons]
          rfl
        · rw [if_neg hcommit, if_neg hcommit]
          simp only [Option.map_none']
      · rename_i heq
        have heq' : g.tile (step_tile_pos pos drow dcol i) = none := heq
        exact Option.noConfusion (htile.symm.trans heq')
    · rw [List.takeWhile_cons_of_neg (by simp [hok])] at h1 h2 ⊢
      simp only [List.length_nil, Nat.add_zero, List.range'_zero, List.map_nil]
      have hok' : ¬(step_in_bounds g pos drow dcol i ∧
          g.tile (step_tile_pos pos drow dcol i) = some player.opposite) := by
        intro hc
        exact hok ((opp_step_iff g player pos drow dcol i).mpr hc)
      simp only [scanDir]
      by_cases hinb : step_in_bounds g pos drow dcol i
      · have hinb' : 0 ≤ (pos.row : Int) + drow * (i : Int) ∧
            (pos.row : Int) + drow * (i : Int) < (g.col_len : Int) ∧
            0 ≤ (pos.col : Int) + dcol * (i : Int) ∧
            (pos.col : Int) + dcol * (i : Int) < (g.row_len : Int) := hinb
        rw [if_pos hinb']
        have hne : g.tile (step_tile_pos pos drow dcol i) ≠ some player.opposite :=
          fun hc => hok' ⟨hinb, hc⟩
        split
        · rename_i piece heq
          have heq' : g.tile (step_tile_pos pos drow dcol i) = some piece := heq
          rw [heq'] at hne
          have hpiece : piece = player := by
            cases piece <;> cases player <;> simp [Piece.opposite] at hne ⊢
          subst hpiece
          rw [if_neg (fun hc => Piece.opposite_ne piece hc), if_pos rfl]
          rw [if_pos ⟨hinb, heq'⟩]
        · rename_i heq
          have heq' : g.tile (step_tile_pos pos drow dcol i) = none := heq
          rw [if_neg]
          intro hc
          rw [heq'] at hc
          exact Option.noConfusion hc.2
      · have hinb' : ¬(0 ≤ (pos.row : Int) + drow * (i : Int) ∧
            (pos.row : Int) + drow * (i : Int) < (g.col_len : Int) ∧
            0 ≤ (pos.col : Int) + dcol * (i : Int) ∧
            (pos.col : Int) + dcol * (i : Int) < (g.row_len : Int)) := hinb
        rw [if_neg hinb', if_neg (fun hc => hinb hc.1)]

lemma spec_run_len_le_8 (g : Grid) (player : Piece) (pos : TilePos)
    (drow dcol : Int) (hwf : g.WF) (hd : (drow, dcol) ∈ directions) :
    spec_run_len g player pos drow dcol ≤ 8 := by
  unfold spec_run_len
  by_contra hgt
  push_neg at hgt
  have hle : ((List.range' 1 9).takeWhile (opp_step g player pos drow dcol)).length ≤ 9 := by
    have hsub := List.Sublist.length_le
      (List.takeWhile_sublist (opp_step g player pos drow dcol)
        (l := List.range' 1 9))
    simpa using hsub
  have h9 : ((List.range' 1 9).takeWhile (opp_step g player pos drow dcol)).length = 9 := by
    omega
  have heq : (List.range' 1 9).takeWhile (opp_step g player pos drow dcol) =
      List.range' 1 9 := by
    have hpre := List.takeWhile_prefix (opp_step g player pos drow dcol)
      (l := List.range' 1 9)
    exact hpre.eq_of_length (by rw [h9]; simp)
  have hmem1 : (1 : Nat) ∈ (List.range' 1 9).takeWhile (opp_step g player pos drow dcol) := by
    rw [heq]
    decide
  have hmem9 : (9 : Nat) ∈ (List.range' 1 9).takeWhile (opp_step g player pos drow dcol) := by
    rw [heq]
    decide
  have h1 := (opp_step_iff g player pos drow dcol 1).mp (List.mem_takeWhile_imp hmem1)
  have h9' := (opp_step_iff g player pos drow dcol 9).mp (List.mem_takeWhile_imp hmem9)
  obtain ⟨hinb1, -⟩ := h1
  obtain ⟨hinb9, -⟩ := h9'
  unfold step_in_bounds step_row step_col at hinb1 hinb9
  rw [WF_col_len hwf, WF_row_len hwf] at hinb1 hinb9
  simp only [directions, List.mem_cons, List.not_mem_nil, or_false] at hd
  rcases hd with h | h | h | h | h | h | h | h <;>
    (rw [Prod.ext_iff] at h; obtain ⟨h1, h2⟩ := h; simp only at h1 h2;
     subst h1; subst h2; omega)

lemma dir_flips_eq_spec (g : Grid) (player : Piece) (pos : TilePos)
    (drow dcol : Int) (hwf : g.WF) (hd : (drow, dcol) ∈ directions) :
    (scanDir g player pos drow dcol (flipsFuel g) 1).getD [] =
      spec_dir_flips g player pos drow dcol := by
  have hk := spec_run_len_le_8 g player pos drow dcol hwf hd
  unfold spec_run_len at hk
  have hfuel : flipsFuel g = 18 := by
    unfold flipsFuel
    rw [WF_col_len hwf, WF_row_len hwf]
  have hs := scanDir_eq_spec g player pos drow dcol (flipsFuel g) 1 9
    (by omega) (by rw [hfuel]; omega)
  rw [hs]
  unfold spec_dir_flips spec_run_len
  rw [Nat.add_comm 1 ((List.range' 1 9).takeWhile (opp_step g player pos drow dcol)).length]
  split <;> simp

lemma compute_flips_eq_spec (g : Grid) (player : Piece) (hwf : g.WF)
    (pos : TilePos) :
    compute_flips g player pos = spec_flips g player pos := by
  unfold compute_flips spec_flips
  apply List.flatMap_congr
  intro d hd
  have hd' : (d.1, d.2) ∈ directions := by
    rwa [show (d.1, d.2) = d from rfl]
  exact dir_flips_eq_spec g player pos d.1 d.2 hwf hd'

/-! Bridging the source's enumerate-based iteration to index ranges. -/

lemma enumFrom_flatMap_eq {α β : Type} (l : List α) (d : α) (f : Nat × α → List β) :
    ∀ k, (l.enumFrom k).flatMap f =
      (List.range l.length).flatMap fun i => f (k + i, l.getD i d) := by
  induction l with
  | nil => intro k; simp
  | cons a as ih =>
    intro k
    rw [List.enumFrom_cons, List.flatMap_cons, List.length_cons,
      List.range_succ_eq_map, List.flatMap_cons, List.flatMap_map, ih (k + 1)]
    congr 1
    apply List.flatMap_congr
    intro i hi
    have harith : k + (i + 1) = k + 1 + i := by omega
    rw [harith]
    simp [Nat.succ_eq_add_one, List.getD_cons_succ]

lemma enumFrom_filterMap_eq {α β : Type} (l : List α) (d : α) (f : Nat × α → Option β) :
    ∀ k, (l.enumFrom k).filterMap f =
      (List.range l.length).filterMap fun i => f (k + i, l.getD i d) := by
  induction l with
  | nil => intro k; simp
  | cons a as ih =>
    intro k
    rw [List.enumFrom_cons, List.length_cons, List.range_succ_eq_map,
      List.filterMap_cons, List.filterMap_cons, List.filterMap_map, ih (k + 1)]
    have hhead : f (k + 0, (a :: as).getD 0 d) = f (k, a) := by simp
    rw [hhead]
    have htail : ((List.range as.length).filterMap fun i =>
        f (k + Nat.succ i, (a :: as).getD (Nat.succ i) d)) =
        (List.range as.length).filterMap fun i => f (k + 1 + i, as.getD i d) := by
      apply List.filterMap_congr
      intro i hi
      have harith : k + (i + 1) = k + 1 + i := by omega
      simp only [Nat.succ_eq_add_one, List.getD_cons_succ, harith]
    rw [show ((fun i => f (k + i, (a :: as).getD i d)) ∘ Nat.succ) =
        fun i => f (k + Nat.succ i, (a :: as).getD (Nat.succ i) d) from rfl]
    rw [htail]

lemma compute_valid_moves_eq_spec (g : Grid) (player : Piece) (hwf : g.WF) :
    compute_valid_moves g player = spec_legal_moves g player := by
  unfold compute_valid_moves spec_legal_moves Grid.rows
  rw [show g.tiles.enum = g.tiles.enumFrom 0 from rfl,
    enumFrom_flatMap_eq g.tiles [] _ 0, hwf.1]
  apply List.flatMap_congr
  intro r hr
  have hr8 : r < 8 := List.mem_range.mp hr
  have hlt : r < g.tiles.length := by rw [hwf.1]; exact hr8
  have hrow : (g.tiles.getD r []).length = 8 := by
    rw [List.getD_eq_getElem _ _ hlt]
    exact hwf.2 _ (List.getElem_mem hlt)
  simp only [Nat.zero_add]
  rw [show (g.tiles.getD r []).enum = (g.tiles.getD r []).enumFrom 0 from rfl,
    enumFrom_filterMap_eq (g.tiles.getD r []) none _ 0, hrow]
  apply List.filterMap_congr
  intro c hc
  simp only [Nat.zero_add]
  have hform : (g.tiles.getD r []).getD c none = g.tile ⟨r, c⟩ := rfl
  rw [hform, ← compute_flips_eq_spec g player hwf ⟨r, c⟩]
  rcases htile : g.tile ⟨r, c⟩ with _ | p
  · by_cases hf : compute_flips g player ⟨r, c⟩ = [] <;> simp [hf]
  · simp

/-- C1: on a well-formed board, the legal-move computation returns exactly the
empty positions with a non-empty flip set in row-major order, and the flip set
is, in each of the 8 directions, the maximal adjacent run of opponent tiles
committed only when terminated by one of the acting player's own tiles. -/
theorem legal_moves_and_flips_spec (g : Grid) (player : Piece) (hwf : g.WF) :
    compute_valid_moves g player = spec_legal_moves g player ∧
    ∀ pos : TilePos, compute_flips g player pos = spec_flips g player pos :=
  ⟨compute_valid_moves_eq_spec g player hwf, compute_flips_eq_spec g player hwf⟩

/-- Witness for the legal-move/flip-set characterization at the initial
board. -/
theorem legal_moves_and_flips_spec_witness :
    Reversi.default.grid.WF ∧
      (compute_valid_moves Reversi.default.grid Piece.X =
        spec_legal_moves Reversi.default.grid Piece.X ∧
      ∀ pos : TilePos, compute_flips Reversi.default.grid Piece.X pos =
        spec_flips Reversi.default.grid Piece.X pos) :=
  ⟨by decide, legal_moves_and_flips_spec Reversi.default.grid Piece.X (by decide)⟩

/-! Membership characterization of the legal-move list, and the panic
contract of make_move. -/

lemma take_range'_eq : ∀ (n s m : Nat), (List.range' s n).take m = List.range' s (min m n) := by
  intro n
  induction n with
  | zero => intro s m; simp
  | succ n ih =>
    intro s m
    rw [List.range'_succ]
    cases m with
    | zero => simp
    | succ m =>
      rw [List.take_succ_cons, ih (s + 1) m]
      have hmin : min (m + 1) (n + 1) = min m n + 1 := by omega
      rw [hmin, List.range'_succ]

lemma takeWhile_range'_shape (p : Nat → Bool) (s n : Nat) :
    (List.range' s n).takeWhile p =
      List.range' s ((List.range' s n).takeWhile p).length := by
  have hpre := List.takeWhile_prefix p (l := List.range' s n)
  have hlen : ((List.range' s n).takeWhile p).length ≤ n := by
    have := List.Sublist.length_le (List.takeWhile_sublist p (l := List.range' s n))
    simpa using this
  conv_lhs => rw [List.prefix_iff_eq_take.mp hpre]
  rw [take_range'_eq]
  congr 1
  omega

lemma opp_step_of_mem_run (g : Grid) (player : Piece) (pos : TilePos)
    (drow dcol : Int) (i : Nat)
    (hi : i ∈ List.range' 1 (spec_run_len g player pos drow dcol)) :
    opp_step g player pos drow dcol i = true := by
  apply List.mem_takeWhile_imp (l := List.range' 1 9)
  rw [takeWhile_range'_shape (opp_step g player pos drow dcol) 1 9]
  exact hi

lemma flips_tile_opponent (g : Grid) (player : Piece) (hwf : g.WF)
    (pos q : TilePos) (hq : q ∈ compute_flips g player pos) :
    g.tile q = some player.opposite := by
  rw [compute_flips_eq_spec g player hwf pos] at hq
  unfold spec_flips at hq
  rw [List.mem_flatMap] at hq
  obtain ⟨d, hd, hq2⟩ := hq
  unfold spec_dir_flips at hq2
  split at hq2
  · rw [List.mem_map] at hq2
    obtain ⟨i, hi, rfl⟩ := hq2
    have hok := (opp_step_iff g player pos d.1 d.2 i).mp
      (opp_step_of_mem_run g player pos d.1 d.2 i hi)
    exact hok.2
  · exact absurd hq2 (List.not_mem_nil q)

lemma mem_compute_valid_moves (g : Grid) (player : Piece) (hwf : g.WF)
    (pos : TilePos) :
    pos ∈ compute_valid_moves g player ↔
      pos.row < 8 ∧ pos.col < 8 ∧ g.tile pos = none ∧
        compute_flips g player pos ≠ [] := by
  rw [compute_valid_moves_eq_spec g player hwf]
  unfold spec_legal_moves
  simp only [List.mem_flatMap, List.mem_filterMap, List.mem_range]
  constructor
  · rintro ⟨r, hr, c, hc, hsome⟩
    by_cases hcond : g.tile ⟨r, c⟩ = none ∧ spec_flips g player ⟨r, c⟩ ≠ []
    · rw [if_pos hcond] at hsome
      obtain rfl := Option.some.inj hsome
      refine ⟨hr, hc, hcond.1, ?_⟩
      rw [compute_flips_eq_spec g player hwf]
      exact hcond.2
    · rw [if_neg hcond] at hsome
      exact Option.noConfusion hsome
  · rintro ⟨hr, hc, hnone, hflips⟩
    refine ⟨pos.row, hr, pos.col, hc, ?_⟩
    have hps : (⟨pos.row, pos.col⟩ : TilePos) = pos := by cases pos; rfl
    rw [hps, if_pos ⟨hnone, by
      rw [← compute_flips_eq_spec g player hwf]
      exact hflips⟩]

/-- C7: on a consistent state, make_move fails fatally exactly when pos is not
a member of the current legal-move list; it fails on occupied tiles and on
empty tiles with an empty flip set, and never fails on a cached valid move. -/
theorem make_move_panics_iff (st : Reversi) (pos : TilePos)
    (hwf : st.grid.WF)
    (hcache : st.valid_moves = compute_valid_moves st.grid st.current_player) :
    st.make_move_panics pos ↔ pos ∉ st.valid_moves := by
  rw [hcache]
  rw [show (pos ∈ compute_valid_moves st.grid st.current_player) ↔
      (pos.row < 8 ∧ pos.col < 8 ∧ st.grid.tile pos = none ∧
        compute_flips st.grid st.current_player pos ≠ []) from
    mem_compute_valid_moves st.grid st.current_player hwf pos]
  unfold Reversi.make_move_panics
  rw [WF_col_len hwf, WF_row_len hwf]
  constructor
  · rintro (h | h | h) ⟨hr, hc, hnone, hflips⟩
    · exact h ⟨hr, hc⟩
    · rw [hnone] at h
      simp at h
    · exact hflips h
  · intro h
    by_cases hr : pos.row < 8
    · by_cases hc : pos.col < 8
      · rcases htile : st.grid.tile pos with _ | p
        · right; right
          by_contra hne
          exact h ⟨hr, hc, htile, hne⟩
        · right; left
          rfl
      · left
        intro hcontra
        exact hc hcontra.2
    · left
      intro hcontra
      exact hr hcontra.1

/-- Witness for the panic contract: at the initial state, position (0,0) is
outside the legal-move list and make_move on it panics. -/
theorem make_move_panics_iff_witness :
    (Reversi.default.grid.WF ∧
      Reversi.default.valid_moves =
        compute_valid_moves Reversi.default.grid Reversi.default.current_player) ∧
    (Reversi.default.make_move_panics ⟨0, 0⟩ ↔
      (⟨0, 0⟩ : TilePos) ∉ Reversi.default.valid_moves) :=
  ⟨⟨by decide, rfl⟩, make_move_panics_iff Reversi.default ⟨0, 0⟩ (by decide) rfl⟩

/-! Shape preservation and the occupancy effect of make_move. -/

lemma WF_place (g : Grid) (pos : TilePos) (piece : Piece) (hwf : g.WF) :
    (g.place pos piece).WF := by
  obtain ⟨hlen, hrows⟩ := hwf
  constructor
  · unfold Grid.place
    simpa using hlen
  · intro row hrow
    unfold Grid.place at hrow
    simp only at hrow
    by_cases hr : pos.row < g.tiles.length
    · rcases List.mem_or_eq_of_mem_set hrow with h | h
      · exact hrows row h
      · subst h
        rw [List.length_set]
        refine hrows _ ?_
        rw [List.getD_eq_getElem _ _ hr]
        exact List.getElem_mem hr
    · rw [List.set_eq_of_length_le (Nat.le_of_not_lt hr)] at hrow
      exact hrows row hrow

lemma WF_fold_place (flips : List TilePos) (g : Grid) (player : Piece)
    (hwf : g.WF) :
    (flips.foldl (fun gr fp => gr.place fp player) g).WF := by
  induction flips generalizing g with
  | nil => exact hwf
  | cons a rest ih => exact ih _ (WF_place g a player hwf)

lemma make_move_grid_eq (st : Reversi) (pos : TilePos) :
    (st.make_move pos).grid =
      ((compute_flips st.grid st.current_player pos).foldl
        (fun g fp => g.place fp st.current_player) st.grid).place pos
        st.current_player := rfl

lemma make_move_player_eq (st : Reversi) (pos : TilePos) :
    (st.make_move pos).current_player = st.current_player.opposite := rfl

lemma WF_make_move (st : Reversi) (pos : TilePos) (hwf : st.grid.WF) :
    (st.make_move pos).grid.WF := by
  rw [make_move_grid_eq]
  exact WF_place _ pos _
    (WF_fold_place (compute_flips st.grid st.current_player pos) st.grid
      st.current_player hwf)

lemma WF_advance_turn (st : Reversi) (hwf : st.grid.WF) :
    st.advance_turn.grid.WF := hwf

/-- C10: applying a cached valid move occupies exactly one new tile (the sum
of the two scores grows by exactly 1): the placed position goes from empty to
the mover's piece, and every other changed tile held the opponent's piece
before and holds the mover's piece after, so no tile is ever emptied and no
empty tile other than pos becomes occupied. -/
theorem make_move_occupancy (st : Reversi) (pos : TilePos)
    (hwf : st.grid.WF)
    (hcache : st.valid_moves = compute_valid_moves st.grid st.current_player)
    (hmem : pos ∈ st.valid_moves) :
    (st.make_move pos).scores.1 + (st.make_move pos).scores.2 =
      st.scores.1 + st.scores.2 + 1 ∧
    st.grid.tile pos = none ∧
    (st.make_move pos).grid.tile pos = some st.current_player ∧
    ∀ q : TilePos, q ≠ pos →
      (st.make_move pos).grid.tile q ≠ st.grid.tile q →
      st.grid.tile q = some st.current_player.opposite ∧
        (st.make_move pos).grid.tile q = some st.current_player := by
  rw [hcache] at hmem
  obtain ⟨hr, hc, hnone, hflips⟩ :=
    (mem_compute_valid_moves st.grid st.current_player hwf pos).mp hmem
  have hocc : ∀ q ∈ compute_flips st.grid st.current_player pos,
      (st.grid.tile q).isSome = true := by
    intro q hq
    rw [flips_tile_opponent st.grid st.current_player hwf pos q hq]
    rfl
  obtain ⟨hfold_occ, hfold_mono, hfold_mem, hfold_ne⟩ :=
    foldl_place_props (compute_flips st.grid st.current_player pos) st.grid
      st.current_player hocc
  have hpos_not : pos ∉ compute_flips st.grid st.current_player pos := by
    intro hin
    have hsome := hocc pos hin
    rw [hnone] at hsome
    simp at hsome
  have hG1pos : ((compute_flips st.grid st.current_player pos).foldl
      (fun gr fp => gr.place fp st.current_player) st.grid).tile pos =
      st.grid.tile pos := hfold_ne pos hpos_not
  have hG1wf : ((compute_flips st.grid st.current_player pos).foldl
      (fun gr fp => gr.place fp st.current_player) st.grid).WF :=
    WF_fold_place (compute_flips st.grid st.current_player pos) st.grid
      st.current_player hwf
  have hrlen : pos.row < ((compute_flips st.grid st.current_player pos).foldl
      (fun gr fp => gr.place fp st.current_player) st.grid).tiles.length := by
    rw [hG1wf.1]
    exact hr
  have hclen : pos.col < (((compute_flips st.grid st.current_player pos).foldl
      (fun gr fp => gr.place fp st.current_player) st.grid).tiles.getD pos.row []).length := by
    rw [List.getD_eq_getElem _ _ hrlen]
    rw [hG1wf.2 _ (List.getElem_mem hrlen)]
    exact hc
  have hG1posnone : ((compute_flips st.grid st.current_player pos).foldl
      (fun gr fp => gr.place fp st.current_player) st.grid).tile pos = none := by
    rw [hG1pos]
    exact hnone
  refine ⟨?_, hnone, ?_, ?_⟩
  · rw [scores_sum_eq_occupied, scores_sum_eq_occupied, make_move_grid_eq,
      occupied_place_of_none st.current_player hG1posnone hrlen hclen, hfold_occ]
  · rw [make_move_grid_eq]
    exact tile_place_self _ pos st.current_player hrlen hclen
  · intro q hqpos hqchange
    rw [make_move_grid_eq] at hqchange ⊢
    rw [tile_place_ne _ pos q st.current_player hqpos] at hqchange ⊢
    by_cases hqf : q ∈ compute_flips st.grid st.current_player pos
    · exact ⟨flips_tile_opponent st.grid st.current_player hwf pos q hqf,
        hfold_mem q hqf⟩
    · exact absurd (hfold_ne q hqf) hqchange

/-- Witness for the occupancy effect at the initial state with move (2,4). -/
theorem make_move_occupancy_witness :
    (Reversi.default.grid.WF ∧
      Reversi.default.valid_moves =
        compute_valid_moves Reversi.default.grid Reversi.default.current_player ∧
      (⟨2, 4⟩ : TilePos) ∈ Reversi.default.valid_moves) ∧
    ((Reversi.default.make_move ⟨2, 4⟩).scores.1 +
        (Reversi.default.make_move ⟨2, 4⟩).scores.2 =
      Reversi.default.scores.1 + Reversi.default.scores.2 + 1 ∧
    Reversi.default.grid.tile ⟨2, 4⟩ = none ∧
    (Reversi.default.make_move ⟨2, 4⟩).grid.tile ⟨2, 4⟩ =
      some Reversi.default.current_player ∧
    ∀ q : TilePos, q ≠ ⟨2, 4⟩ →
      (Reversi.default.make_move ⟨2, 4⟩).grid.tile q ≠ Reversi.default.grid.tile q →
      Reversi.default.grid.tile q = some Reversi.default.current_player.opposite ∧
        (Reversi.default.make_move ⟨2, 4⟩).grid.tile q =
          some Reversi.default.current_player) :=
  ⟨⟨by decide, rfl, by decide⟩,
    make_move_occupancy Reversi.default ⟨2, 4⟩ (by decide) rfl (by decide)⟩

/-! Characterization of the running-maximum move loop of negamax. -/

lemma foldl_max_le_self (l : List Int) (s : Int) : s ≤ l.foldl max s := by
  induction l generalizing s with
  | nil => simp
  | cons a as ih => exact le_trans (le_max_left s a) (ih (max s a))

lemma mem_le_foldl_max (l : List Int) (s x : Int) (hx : x ∈ l) :
    x ≤ l.foldl max s := by
  induction l generalizing s with
  | nil => simp at hx
  | cons a as ih =>
    rcases List.mem_cons.mp hx with rfl | hmem
    · exact le_trans (le_max_right s x) (foldl_max_le_self as (max s x))
    · exact ih (max s a) hmem

lemma foldl_max_attained (l : List Int) (s : Int) :
    l.foldl max s = s ∨ l.foldl max s ∈ l := by
  induction l generalizing s with
  | nil => left; rfl
  | cons a as ih =>
    rcases ih (max s a) with h | h
    · rcases max_choice s a with hm | hm
      · left
        rw [List.foldl_cons, h, hm]
      · right
        rw [List.foldl_cons, h, hm]
        exact List.mem_cons_self a as
    · right
      exact List.mem_cons_of_mem a h

lemma foldl_best_spec (f : TilePos → Int) (moves : List TilePos) :
    ∀ (mb : Option TilePos) (s : Int),
      moves.foldl
        (fun acc pmove => if acc.2 < f pmove then (some pmove, f pmove) else acc)
        (mb, s) =
      ((moves.find?
          (fun m => decide (s < f m ∧ (moves.map f).foldl max s ≤ f m))).elim mb some,
       (moves.map f).foldl max s) := by
  induction moves with
  | nil =>
    intro mb s
    rfl
  | cons m rest ih =>
    intro mb s
    rw [List.foldl_cons, List.map_cons, List.foldl_cons]
    by_cases hlt : s < f m
    · rw [if_pos hlt]
      rw [ih (some m) (f m)]
      have hmax : max s (f m) = f m := max_eq_right (le_of_lt hlt)
      rw [hmax]
      have hfm_le : f m ≤ (rest.map f).foldl max (f m) := foldl_max_le_self _ _
      by_cases hM : (rest.map f).foldl max (f m) ≤ f m
      · have hMeq : (rest.map f).foldl max (f m) = f m := le_antisymm hM hfm_le
        have hnone : rest.find?
            (fun x => decide (f m < f x ∧ (rest.map f).foldl max (f m) ≤ f x)) = none := by
          rw [List.find?_eq_none]
          intro x hx
          simp only [decide_eq_true_iff, not_and]
          intro hfx
          have hxle : f x ≤ (rest.map f).foldl max (f m) :=
            mem_le_foldl_max (rest.map f) (f m) (f x) (List.mem_map_of_mem f hx)
          omega
        rw [hnone]
        have hPm : (fun x => decide (s < f x ∧ (rest.map f).foldl max (f m) ≤ f x)) m =
            true := by
          simp only [decide_eq_true_iff]
          exact ⟨hlt, hM⟩
        rw [List.find?_cons_of_pos rest hPm]
        rfl
      · push_neg at hM
        have hcongr : (fun x => decide (f m < f x ∧ (rest.map f).foldl max (f m) ≤ f x)) =
            fun x => decide (s < f x ∧ (rest.map f).foldl max (f m) ≤ f x) := by
          funext x
          rcases le_or_lt ((rest.map f).foldl max (f m)) (f x) with hle | hgt
          · simp only [decide_eq_decide]
            constructor
            · intro hx
              exact ⟨lt_of_lt_of_le hlt (le_trans (le_of_lt hM) hle), hle⟩
            · intro hx
              exact ⟨lt_of_lt_of_le hM hle, hle⟩
          · simp only [decide_eq_decide]
            constructor
            · intro hx
              exact absurd hx.2 (not_le_of_lt hgt)
            · intro hx
              exact absurd hx.2 (not_le_of_lt hgt)
        rw [hcongr]
        have hPm : ¬((fun x => decide (s < f x ∧ (rest.map f).foldl max (f m) ≤ f x)) m =
            true) := by
          simp only [decide_eq_true_iff, not_and]
          intro _
          omega
        rw [List.find?_cons_of_neg rest (by simpa using hPm)]
        have hattain : ∃ x ∈ rest, f x = (rest.map f).foldl max (f m) := by
          rcases foldl_max_attained (rest.map f) (f m) with h | h
          · omega
          · rw [List.mem_map] at h
            obtain ⟨x, hx, hfx⟩ := h
            exact ⟨x, hx, hfx⟩
        obtain ⟨x, hx, hfx⟩ := hattain
        have hsome : (rest.find?
            (fun x => decide (s < f x ∧ (rest.map f).foldl max (f m) ≤ f x))).isSome := by
          rw [List.find?_isSome]
          refine ⟨x, hx, ?_⟩
          simp only [decide_eq_true_iff]
          constructor
          · omega
          · rw [hfx]
        rcases hfind : rest.find?
            (fun x => decide (s < f x ∧ (rest.map f).foldl max (f m) ≤ f x)) with _ | y
        · rw [hfind] at hsome
          simp at hsome
        · rfl
    · rw [if_neg hlt]
      rw [ih mb s]
      have hmax : max s (f m) = s := max_eq_left (le_of_not_lt hlt)
      rw [hmax]
      have hPm : ¬((fun x => decide (s < f x ∧ (rest.map f).foldl max s ≤ f x)) m =
          true) := by
        simp only [decide_eq_true_iff, not_and]
        intro hcontra
        exact absurd hcontra hlt
      rw [List.find?_cons_of_neg rest (by simpa using hPm)]

/-! A coarse bound on the evaluator and on negamax scores: they can never
reach the i32::min_value() sentinel of the move loop. -/

lemma abs_tile_score_le (g : Grid) (p : Piece) (pos : TilePos) (v : Int) :
    |tile_score g p pos v| ≤ |v| := by
  unfold tile_score
  cases g.tile pos with
  | none =>
    simp
  | some piece =>
    show |if piece = p then v else -v| ≤ |v|
    by_cases hp : piece = p
    · rw [if_pos hp]
    · rw [if_neg hp, abs_neg]

lemma abs_sum_map_le {α : Type} (l : List α) (f : α → Int) (c : Int)
    (h : ∀ x ∈ l, |f x| ≤ c) : |(l.map f).sum| ≤ (l.length : Int) * c := by
  induction l with
  | nil => simp
  | cons a as ih =>
    simp only [List.map_cons, List.sum_cons, List.length_cons]
    have h1 := h a (by simp)
    have h2 := ih fun y hy => h y (List.mem_cons_of_mem a hy)
    calc |f a + (as.map f).sum| ≤ |f a| + |(as.map f).sum| := abs_add _ _
      _ ≤ c + (as.length : Int) * c := by linarith
      _ = ((as.length + 1 : Nat) : Int) * c := by push_cast; ring

lemma abs_add4_le {a b c d : Int} (ha : |a| ≤ 64) (hb : |b| ≤ 16)
    (hc : |c| ≤ 32) (hd : |d| ≤ 32) : |a + b + c + d| ≤ 200 := by
  calc |a + b + c + d| ≤ |a + b + c| + |d| := abs_add _ _
    _ ≤ |a + b| + |c| + |d| := by linarith [abs_add (a + b) c]
    _ ≤ |a| + |b| + |c| + |d| := by linarith [abs_add a b]
    _ ≤ 200 := by linarith

lemma abs_negamax_score_le (g : Reversi) (p : Piece) (hwf : g.grid.WF) :
    |negamax_score g p| ≤ 200 := by
  obtain ⟨h1, h2⟩ := scores_le_64 g hwf
  simp only [negamax_score]
  apply abs_add4_le
  · rw [abs_le]
    constructor <;> (split <;> omega)
  · have hb := abs_sum_map_le
      [(⟨0, 0⟩ : TilePos), ⟨0, g.grid.row_len - 1⟩, ⟨g.grid.col_len - 1, 0⟩,
        ⟨g.grid.col_len - 1, g.grid.row_len - 1⟩]
      (fun corner => tile_score g.grid p corner CORNER_BONUS) 4
      (fun x _ => le_trans (abs_tile_score_le g.grid p x CORNER_BONUS) (by norm_num [CORNER_BONUS]))
    simpa using hb
  · have hb := abs_sum_map_le (List.range g.grid.col_len)
      (fun row => tile_score g.grid p ⟨row, 0⟩ SIDE_BONUS +
        tile_score g.grid p ⟨row, g.grid.row_len - 1⟩ SIDE_BONUS) 4
      (fun x _ => by
        calc |tile_score g.grid p ⟨x, 0⟩ SIDE_BONUS +
            tile_score g.grid p ⟨x, g.grid.row_len - 1⟩ SIDE_BONUS| ≤
            |tile_score g.grid p ⟨x, 0⟩ SIDE_BONUS| +
              |tile_score g.grid p ⟨x, g.grid.row_len - 1⟩ SIDE_BONUS| := abs_add _ _
          _ ≤ 4 := by
            have hb1 := le_trans (abs_tile_score_le g.grid p ⟨x, 0⟩ SIDE_BONUS)
              (by norm_num [SIDE_BONUS] : |SIDE_BONUS| ≤ 2)
            have hb2 := le_trans
              (abs_tile_score_le g.grid p ⟨x, g.grid.row_len - 1⟩ SIDE_BONUS)
              (by norm_num [SIDE_BONUS] : |SIDE_BONUS| ≤ 2)
            linarith)
    have hlen : (((List.range g.grid.col_len).length : Nat) : Int) * 4 = 32 := by
      simp [WF_col_len hwf]
    rw [hlen] at hb
    simpa using hb
  · have hb := abs_sum_map_le (List.range g.grid.row_len)
      (fun col => tile_score g.grid p ⟨0, col⟩ SIDE_BONUS +
        tile_score g.grid p ⟨g.grid.col_len - 1, col⟩ SIDE_BONUS) 4
      (fun x _ => by
        calc |tile_score g.grid p ⟨0, x⟩ SIDE_BONUS +
            tile_score g.grid p ⟨g.grid.col_len - 1, x⟩ SIDE_BONUS| ≤
            |tile_score g.grid p ⟨0, x⟩ SIDE_BONUS| +
              |tile_score g.grid p ⟨g.grid.col_len - 1, x⟩ SIDE_BONUS| := abs_add _ _
          _ ≤ 4 := by
            have hb1 := le_trans (abs_tile_score_le g.grid p ⟨0, x⟩ SIDE_BONUS)
              (by norm_num [SIDE_BONUS] : |SIDE_BONUS| ≤ 2)
            have hb2 := le_trans
              (abs_tile_score_le g.grid p ⟨g.grid.col_len - 1, x⟩ SIDE_BONUS)
              (by norm_num [SIDE_BONUS] : |SIDE_BONUS| ≤ 2)
            linarith)
    have hlen : (((List.range g.grid.row_len).length : Nat) : Int) * 4 = 32 := by
      simp [WF_row_len hwf]
    rw [hlen] at hb
    simpa using hb

lemma abs_negamax_le : ∀ (n : Nat) (g : Reversi) (vm : List TilePos) (sk : Bool)
    (d : Nat), MAX_DEPTH - d ≤ n → g.grid.WF →
    |(negamax g vm sk d).2| ≤ 200 := by
  intro n
  induction n with
  | zero =>
    intro g vm sk d hd hwf
    have hcut : d ≥ MAX_DEPTH := by
      unfold MAX_DEPTH at hd ⊢
      omega
    rw [negamax]
    rw [dif_pos (Or.inl hcut)]
    exact abs_negamax_score_le g g.current_player hwf
  | succ n ih =>
    intro g vm sk d hd hwf
    rw [negamax]
    by_cases h1 : d ≥ MAX_DEPTH ∨ g.grid.is_full = true ∨ (sk = true ∧ vm = [])
    · rw [dif_pos h1]
      exact abs_negamax_score_le g g.current_player hwf
    · rw [dif_neg h1]
      have hdlt : d < MAX_DEPTH := by
        by_contra hge
        exact h1 (Or.inl (Nat.le_of_not_lt hge))
      by_cases h2 : vm = []
      · rw [dif_pos h2]
        exact ih g.advance_turn g.advance_turn.valid_moves true (d + 1)
          (by omega) (WF_advance_turn g hwf)
      · rw [dif_neg h2]
        have hform : (vm.foldl
            (fun acc pmove =>
              let mgame := g.make_move pmove
              let score := -(negamax mgame mgame.valid_moves false (d + 1)).2
              if acc.2 < score then (some pmove, score) else acc)
            ((none : Option TilePos), intMin)) =
            vm.foldl
              (fun acc pmove =>
                if acc.2 < (fun m => -(negamax (g.make_move m)
                    (g.make_move m).valid_moves false (d + 1)).2) pmove
                then (some pmove, (fun m => -(negamax (g.make_move m)
                    (g.make_move m).valid_moves false (d + 1)).2) pmove)
                else acc)
              ((none : Option TilePos), intMin) := rfl
        rw [hform, foldl_best_spec
          (fun m => -(negamax (g.make_move m) (g.make_move m).valid_moves false (d + 1)).2)
          vm (none : Option TilePos) intMin]
        simp only
        have hf : ∀ m ∈ vm,
            |-(negamax (g.make_move m) (g.make_move m).valid_moves false (d + 1)).2| ≤ 200 := by
          intro m hm
          rw [abs_neg]
          exact ih (g.make_move m) (g.make_move m).valid_moves false (d + 1)
            (by omega) (WF_make_move g m hwf)
        rcases foldl_max_attained
            (vm.map fun m => -(negamax (g.make_move m) (g.make_move m).valid_moves false (d + 1)).2)
            intMin with hat | hat
        · obtain ⟨m0, hm0⟩ := List.exists_mem_of_ne_nil vm h2
          have hle := mem_le_foldl_max
            (vm.map fun m => -(negamax (g.make_move m) (g.make_move m).valid_moves false (d + 1)).2)
            intMin
            (-(negamax (g.make_move m0) (g.make_move m0).valid_moves false (d + 1)).2)
            (List.mem_map_of_mem _ hm0)
          rw [hat] at hle
          have hb := hf m0 hm0
          rw [abs_le] at hb
          unfold intMin at hle
          exfalso
          omega
        · rw [List.mem_map] at hat
          obtain ⟨x, hx, hfx⟩ := hat
          rw [← hfx]
          exact hf x hx

lemma find?_congr_mem {alpha : Type} (l : List alpha) (p q : alpha → Bool)
    (h : ∀ x ∈ l, p x = q x) : l.find? p = l.find? q := by
  induction l with
  | nil => rfl
  | cons a as ih =>
    rw [List.find?_cons, List.find?_cons, h a (List.mem_cons_self a as)]
    cases hqa : q a with
    | true => rfl
    | false => exact ih fun x hx => h x (List.mem_cons_of_mem a hx)

lemma best_move_eq_find (f : TilePos → Int) (vm : List TilePos)
    (hf : ∀ m ∈ vm, -2147483648 < f m) :
    ((vm.find? fun m =>
        decide (intMin < f m ∧ (vm.map f).foldl max intMin ≤ f m)).elim
      (none : Option TilePos) some) = best_move f vm := by
  unfold best_move best_score
  have hpred : ∀ x ∈ vm,
      (decide (intMin < f x ∧ (vm.map f).foldl max intMin ≤ f x)) =
      (decide (f x = (vm.map f).foldl max intMin)) := by
    intro x hx
    have hub := mem_le_foldl_max (vm.map f) intMin (f x) (List.mem_map_of_mem f hx)
    have hlb := hf x hx
    simp only [decide_eq_decide]
    unfold intMin at hub hlb ⊢
    constructor
    · intro hc
      omega
    · intro hc
      omega
  rw [find?_congr_mem vm _ _ hpred]
  cases vm.find? fun m => decide (f m = (vm.map f).foldl max intMin) with
  | none => rfl
  | some y => rfl

/-- C9: with the evaluator's random term fixed to 0 the search is a pure
function of its arguments, hence two invocations on the same state, move
list, pass flag and depth return the same move and score; in the move branch
the returned move is exactly the earliest move in iteration order among those
attaining the maximal negated child score, because a later move replaces the
running best only on a strictly greater score. -/
theorem negamax_earliest_argmax (g : Reversi) (vm : List TilePos) (sk : Bool)
    (d : Nat) (hwf : g.grid.WF) (hd : d < MAX_DEPTH)
    (hfull : g.grid.is_full = false) (hvm : vm ≠ []) :
    negamax g vm sk d =
      (best_move
        (fun m => -(negamax (g.make_move m) (g.make_move m).valid_moves false (d + 1)).2)
        vm,
       best_score
        (fun m => -(negamax (g.make_move m) (g.make_move m).valid_moves false (d + 1)).2)
        vm) := by
  have h1 : ¬(d ≥ MAX_DEPTH ∨ g.grid.is_full = true ∨ (sk = true ∧ vm = [])) := by
    push_neg
    refine ⟨by omega, by rw [hfull]; simp, fun _ => hvm⟩
  rw [negamax, dif_neg h1, dif_neg hvm]
  have hform : (vm.foldl
      (fun acc pmove =>
        let mgame := g.make_move pmove
        let score := -(negamax mgame mgame.valid_moves false (d + 1)).2
        if acc.2 < score then (some pmove, score) else acc)
      ((none : Option TilePos), intMin)) =
      vm.foldl
        (fun acc pmove =>
          if acc.2 < (fun m => -(negamax (g.make_move m)
              (g.make_move m).valid_moves false (d + 1)).2) pmove
          then (some pmove, (fun m => -(negamax (g.make_move m)
              (g.make_move m).valid_moves false (d + 1)).2) pmove)
          else acc)
        ((none : Option TilePos), intMin) := rfl
  rw [hform, foldl_best_spec
    (fun m => -(negamax (g.make_move m) (g.make_move m).valid_moves false (d + 1)).2)
    vm (none : Option TilePos) intMin]
  have hfb : ∀ m ∈ vm,
      -2147483648 <
        (fun m => -(negamax (g.make_move m) (g.make_move m).valid_moves false (d + 1)).2) m := by
    intro m hm
    have hb := abs_negamax_le MAX_DEPTH (g.make_move m) (g.make_move m).valid_moves false
      (d + 1) (by omega) (WF_make_move g m hwf)
    rw [abs_le] at hb
    simp only
    omega
  rw [best_move_eq_find
    (fun m => -(negamax (g.make_move m) (g.make_move m).valid_moves false (d + 1)).2)
    vm hfb]
  rw [show ((vm.map fun m =>
      -(negamax (g.make_move m) (g.make_move m).valid_moves false (d + 1)).2).foldl
        max intMin) =
      best_score
        (fun m => -(negamax (g.make_move m) (g.make_move m).valid_moves false (d + 1)).2)
        vm from rfl]

/-- Witness for the earliest-argmax characterization: the initial state at
depth 3, one ply from the cutoff. -/
theorem negamax_earliest_argmax_witness :
    (Reversi.default.grid.WF ∧ 3 < MAX_DEPTH ∧
      Reversi.default.grid.is_full = false ∧ Reversi.default.valid_moves ≠ []) ∧
    negamax Reversi.default Reversi.default.valid_moves false 3 =
      (best_move
        (fun m => -(negamax (Reversi.default.make_move m)
          (Reversi.default.make_move m).valid_moves false 4).2)
        Reversi.default.valid_moves,
       best_score
        (fun m => -(negamax (Reversi.default.make_move m)
          (Reversi.default.make_move m).valid_moves false 4).2)
        Reversi.default.valid_moves) :=
  ⟨⟨by decide, by decide, by decide, by decide⟩,
    negamax_earliest_argmax Reversi.default Reversi.default.valid_moves false 3
      (by decide) (by decide) (by decide) (by decide)⟩

/-- A consistent state in which the player to move (X) has no legal move
while the opponent (O) has one: O in corner (0,0), X adjacent at (0,1). -/
def stuckState : Reversi :=
  ⟨(Grid.empty.place ⟨0, 0⟩ Piece.O).place ⟨0, 1⟩ Piece.X, Piece.X,
    compute_valid_moves ((Grid.empty.place ⟨0, 0⟩ Piece.O).place ⟨0, 1⟩ Piece.X)
      Piece.X⟩

/-- Counterexample to C8 as stated: invoked on a state with an empty
legal-move list whose opponent still has a move, negamax_ai does not panic —
the pass branch returns the opponent's move (0,2) and the final unwrap
succeeds. -/
lemma stuckState_inner_negamax :
    negamax (stuckState.advance_turn.make_move ⟨0, 2⟩)
      (stuckState.advance_turn.make_move ⟨0, 2⟩).valid_moves false (0 + 1 + 1) =
    (none, 15) := by
  rw [negamax]
  rw [dif_neg (by decide), dif_pos (by decide)]
  show negamax (stuckState.advance_turn.make_move ⟨0, 2⟩).advance_turn
    (stuckState.advance_turn.make_move ⟨0, 2⟩).advance_turn.valid_moves true
    (0 + 1 + 1 + 1) = (none, 15)
  rw [negamax]
  rw [dif_pos (Or.inr (Or.inr ⟨rfl, by decide⟩))]
  decide

theorem negamax_ai_empty_returns_move :
    stuckState.valid_moves = [] ∧
    negamax_ai stuckState stuckState.valid_moves = some ⟨0, 2⟩ ∧
    negamax_ai stuckState stuckState.valid_moves ≠ none := by
  have hmain : negamax_ai stuckState stuckState.valid_moves = some ⟨0, 2⟩ := by
    unfold negamax_ai
    rw [negamax]
    rw [dif_neg (by decide), dif_pos (by decide)]
    show (negamax stuckState.advance_turn stuckState.advance_turn.valid_moves true
      (0 + 1)).1 = some ⟨0, 2⟩
    rw [negamax]
    rw [dif_neg (by decide), dif_neg (by decide)]
    rw [show stuckState.advance_turn.valid_moves = [(⟨0, 2⟩ : TilePos)] from by decide]
    rw [List.foldl_cons, List.foldl_nil]
    show ((if ((none : Option TilePos), intMin).2 <
        -(negamax (stuckState.advance_turn.make_move ⟨0, 2⟩)
          (stuckState.advance_turn.make_move ⟨0, 2⟩).valid_moves false (0 + 1 + 1)).2
      then ((some (⟨0, 2⟩ : TilePos) : Option TilePos),
        -(negamax (stuckState.advance_turn.make_move ⟨0, 2⟩)
          (stuckState.advance_turn.make_move ⟨0, 2⟩).valid_moves false (0 + 1 + 1)).2)
      else ((none : Option TilePos), intMin)) : Option TilePos × Int).1 = some ⟨0, 2⟩
    rw [stuckState_inner_negamax]
    decide
  exact ⟨by decide, hmain, by rw [hmain]; simp⟩

/-- C8 as amended: with an empty legal-move list, the top-level search panics
(pmove.unwrap() on none) precisely when the board is full or the opponent
reached through the synthetic pass also has no legal moves; otherwise it
returns one of the opponent's moves instead of failing. -/
theorem negamax_ai_empty_iff (g : Reversi) (hwf : g.grid.WF)
    (hvm : g.valid_moves = []) :
    negamax_ai g g.valid_moves = none ↔
      (g.grid.is_full = true ∨ g.advance_turn.valid_moves = []) := by
  rw [hvm]
  unfold negamax_ai
  rw [negamax]
  by_cases hfull : g.grid.is_full = true
  · rw [dif_pos (Or.inr (Or.inl hfull))]
    simp [hfull]
  · have h1 : ¬((0 : Nat) ≥ MAX_DEPTH ∨ g.grid.is_full = true ∨
        (false = true ∧ ([] : List TilePos) = [])) := by
      intro hc
      rcases hc with h | h | h
      · unfold MAX_DEPTH at h
        omega
      · exact hfull h
      · exact absurd h.1 (by simp)
    rw [dif_neg h1, dif_pos rfl]
    by_cases hvm2 : g.advance_turn.valid_moves = []
    · rw [negamax]
      rw [dif_pos (Or.inr (Or.inr ⟨rfl, hvm2⟩))]
      simp [hfull, hvm2]
    · rw [negamax]
      have h2 : ¬((1 : Nat) ≥ MAX_DEPTH ∨ g.advance_turn.grid.is_full = true ∨
          (true = true ∧ g.advance_turn.valid_moves = [])) := by
        intro hc
        rcases hc with h | h | h
        · unfold MAX_DEPTH at h
          omega
        · exact hfull h
        · exact hvm2 h.2
      rw [dif_neg h2, dif_neg hvm2]
      have hform : (g.advance_turn.valid_moves.foldl
          (fun acc pmove =>
            let mgame := g.advance_turn.make_move pmove
            let score := -(negamax mgame mgame.valid_moves false (1 + 1)).2
            if acc.2 < score then (some pmove, score) else acc)
          ((none : Option TilePos), intMin)) =
          g.advance_turn.valid_moves.foldl
            (fun acc pmove =>
              if acc.2 < (fun m => -(negamax (g.advance_turn.make_move m)
                  (g.advance_turn.make_move m).valid_moves false (1 + 1)).2) pmove
              then (some pmove, (fun m => -(negamax (g.advance_turn.make_move m)
                  (g.advance_turn.make_move m).valid_moves false (1 + 1)).2) pmove)
              else acc)
            ((none : Option TilePos), intMin) := rfl
      rw [hform, foldl_best_spec
        (fun m => -(negamax (g.advance_turn.make_move m)
          (g.advance_turn.make_move m).valid_moves false (1 + 1)).2)
        g.advance_turn.valid_moves (none : Option TilePos) intMin]
      have hwf' : g.advance_turn.grid.WF := WF_advance_turn g hwf
      have hf : ∀ m ∈ g.advance_turn.valid_moves,
          |-(negamax (g.advance_turn.make_move m)
            (g.advance_turn.make_move m).valid_moves false (1 + 1)).2| ≤ 200 := by
        intro m hm
        rw [abs_neg]
        exact abs_negamax_le MAX_DEPTH (g.advance_turn.make_move m)
          (g.advance_turn.make_move m).valid_moves false (1 + 1) (by omega)
          (WF_make_move g.advance_turn m hwf')
      have hattain : ∃ x ∈ g.advance_turn.valid_moves,
          -(negamax (g.advance_turn.make_move x)
            (g.advance_turn.make_move x).valid_moves false (1 + 1)).2 =
          (g.advance_turn.valid_moves.map fun m =>
            -(negamax (g.advance_turn.make_move m)
              (g.advance_turn.make_move m).valid_moves false (1 + 1)).2).foldl
            max intMin := by
        rcases foldl_max_attained
            (g.advance_turn.valid_moves.map fun m =>
              -(negamax (g.advance_turn.make_move m)
                (g.advance_turn.make_move m).valid_moves false (1 + 1)).2)
            intMin with hat | hat
        · obtain ⟨m0, hm0⟩ := List.exists_mem_of_ne_nil _ hvm2
          have hle := mem_le_foldl_max
            (g.advance_turn.valid_moves.map fun m =>
              -(negamax (g.advance_turn.make_move m)
                (g.advance_turn.make_move m).valid_moves false (1 + 1)).2)
            intMin
            (-(negamax (g.advance_turn.make_move m0)
              (g.advance_turn.make_move m0).valid_moves false (1 + 1)).2)
            (List.mem_map_of_mem _ hm0)
          rw [hat] at hle
          have hb := hf m0 hm0
          rw [abs_le] at hb
          unfold intMin at hle
          exfalso
          omega
        · rw [List.mem_map] at hat
          obtain ⟨x, hx, hfx⟩ := hat
          exact ⟨x, hx, hfx⟩
      constructor
      · intro hc
        exfalso
        have helim : ∀ o : Option TilePos,
            o.elim (none : Option TilePos) some = none → o = none := by
          intro o ho
          cases o with
          | none => rfl
          | some y => exact absurd ho (by simp)
        have hnone := helim _ hc
        rw [List.find?_eq_none] at hnone
        obtain ⟨x, hx, hfx⟩ := hattain
        have hb := hf x hx
        rw [abs_le] at hb
        apply hnone x hx
        simp only [decide_eq_true_iff]
        constructor
        · unfold intMin
          omega
        · exact le_of_eq hfx.symm
      · intro hc
        rcases hc with h | h
        · exact absurd h hfull
        · exact absurd h hvm2

/-- Witness for the amended empty-list behavior at the stuck state: the board
is not full, the opponent has a move, and the search indeed does not return
none. -/
theorem negamax_ai_empty_iff_witness :
    (stuckState.grid.WF ∧ stuckState.valid_moves = []) ∧
    (negamax_ai stuckState stuckState.valid_moves = none ↔
      (stuckState.grid.is_full = true ∨ stuckState.advance_turn.valid_moves = [])) :=
  ⟨⟨by decide, by decide⟩, negamax_ai_empty_iff stuckState (by decide) (by decide)⟩
